import Mathlib

/-!
Verification of the argument-constraint checking subsystem (as specified for
the std-C-library function-argument checker and exercised by
clang/test/Analysis/std-c-library-functions-arg-constraints.c) together with
the quantized-constant rewrite pattern of
mlir/lib/Dialect/Quant/Transforms/ConvertConst.cpp.

The constraint-engine implementation itself is not part of the source tree
given here (only its test file is), so the Range/RangeSet algebra, program
state, constraint model and application engine are modelled from the
specification; wherever a test expectation in the in-tree test file decides a
behaviour, the model follows the test file.
-/

/-- Modelled from the spec: a closed interval over the ordered scalar
domain (spec section 3, Range).  The domain is Int; a range with `hi < lo`
denotes the empty set of values. -/
structure Range where
  lo : Int
  hi : Int
deriving DecidableEq

/-- A range is well-formed (nonempty) when `lo ≤ hi`. -/
def Range.wfb (r : Range) : Bool :=
  decide (r.lo ≤ r.hi)

/-- Membership of a scalar value in a closed range. -/
def Range.memB (r : Range) (v : Int) : Bool :=
  decide (r.lo ≤ v) && decide (v ≤ r.hi)

/-- Modelled from the spec: a RangeSet is an ordered set of pairwise
disjoint, non-adjacent ranges (spec section 3, RangeSet); represented as a
list of ranges, kept canonical by `normalizeRS`. -/
abbrev RangeSet := List Range

/-- Does the set of values of a RangeSet contain `v`. -/
def containsB (l : RangeSet) (v : Int) : Bool :=
  l.any (fun r => r.memB v)

/-- Insert a range into a list sorted by lower bound. -/
def insertRange (r : Range) : List Range → List Range
  | [] => [r]
  | s :: rest => if r.lo ≤ s.lo then r :: s :: rest else s :: insertRange r rest

/-- Sort a list of ranges by lower bound (insertion sort). -/
def sortRanges : List Range → List Range
  | [] => []
  | r :: rest => insertRange r (sortRanges rest)

/-- Modelled from the spec: eager coalescing of adjacent or overlapping
ranges (spec section 3: merging is eager).  `cur` is the range being grown;
the input list is sorted by lower bound. -/
def coalesceAux (cur : Range) : List Range → List Range
  | [] => [cur]
  | r :: rest =>
    if r.lo ≤ cur.hi + 1 then coalesceAux ⟨cur.lo, max cur.hi r.hi⟩ rest
    else cur :: coalesceAux r rest

/-- Coalesce a sorted list of ranges. -/
def coalesce : List Range → List Range
  | [] => []
  | r :: rest => coalesceAux r rest

/-- Canonicalize an arbitrary list of ranges: drop empty ranges, sort by
lower bound, coalesce adjacent or overlapping ranges. -/
def normalizeRS (l : List Range) : RangeSet :=
  coalesce (sortRanges (l.filter Range.wfb))

/-- Intersection of two single ranges. -/
def interRange (a b : Range) : Range :=
  ⟨max a.lo b.lo, min a.hi b.hi⟩

/-- Modelled from the spec: RangeSet intersection (spec section 4.1). -/
def intersectRS (a b : RangeSet) : RangeSet :=
  normalizeRS ((a.map (fun r => b.map (interRange r))).flatten)

/-- Modelled from the spec: RangeSet union (spec section 4.1). -/
def unionRS (a b : RangeSet) : RangeSet :=
  normalizeRS (a ++ b)

/-- Gaps of a canonical range list inside a domain: `cur` is the first value
not yet covered. -/
def complAux (cur dhi : Int) : List Range → List Range
  | [] => [⟨cur, dhi⟩]
  | r :: rest => ⟨cur, r.lo - 1⟩ :: complAux (r.hi + 1) dhi rest

/-- Modelled from the spec: complement of a RangeSet relative to a declared
domain (spec section 4.1, complementWithinDomain). -/
def complementWithinDomain (dom : Range) (l : RangeSet) : RangeSet :=
  normalizeRS (complAux dom.lo dom.hi (intersectRS l [dom]))

/-- Modelled from the spec: emptiness is the sole feasibility oracle
(spec section 4.1, isEmpty). -/
def isEmptyRS (l : RangeSet) : Bool :=
  l.all (fun r => !r.wfb)

/-- Two consecutive canonical ranges leave a gap of at least one value. -/
def rgap (a b : Range) : Prop :=
  a.hi + 1 < b.lo

/-- The RangeSet invariant: every range nonempty, sorted with a gap of at
least one value between consecutive ranges. -/
def rsInv (l : List Range) : Prop :=
  (∀ r ∈ l, r.lo ≤ r.hi) ∧ List.Chain' rgap l

/-- Two ranges overlap when some value lies in both. -/
def overlapsR (a b : Range) : Prop :=
  ∃ v : Int, a.memB v = true ∧ b.memB v = true

/-- Two ranges are adjacent when one ends directly before the other starts. -/
def adjacentR (a b : Range) : Prop :=
  a.hi + 1 = b.lo ∨ b.hi + 1 = a.lo

/-- A list of ranges is separated when no two of its ranges overlap and no
two are adjacent. -/
def separated (l : List Range) : Prop :=
  l.Pairwise (fun a b => ¬ overlapsR a b ∧ ¬ adjacentR a b)

theorem insertRange_sorted (r : Range) (l : List Range)
    (h : List.Chain' (fun a b : Range => a.lo ≤ b.lo) l) :
    List.Chain' (fun a b : Range => a.lo ≤ b.lo) (insertRange r l) := by
  induction l with
  | nil => simp [insertRange]
  | cons s rest ih =>
    by_cases hle : r.lo ≤ s.lo
    · have heq : insertRange r (s :: rest) = r :: s :: rest := by
        simp [insertRange, hle]
      rw [heq]
      exact List.chain'_cons.mpr ⟨hle, h⟩
    · have hsr : s.lo ≤ r.lo := le_of_not_le hle
      have htail : List.Chain' (fun a b : Range => a.lo ≤ b.lo) rest :=
        h.tail
      have hrec := ih htail
      simp only [insertRange, hle, if_false]
      rw [List.chain'_cons']
      refine ⟨?_, hrec⟩
      intro y hy
      cases rest with
      | nil =>
        simp [insertRange] at hy
        simpa [hy] using hsr
      | cons t ts =>
        by_cases hrt : r.lo ≤ t.lo
        · simp [insertRange, hrt] at hy
          simpa [hy] using hsr
        · simp [insertRange, hrt] at hy
          have := (List.chain'_cons.mp h).1
          simpa [hy] using this

theorem sortRanges_sorted (l : List Range) :
    List.Chain' (fun a b : Range => a.lo ≤ b.lo) (sortRanges l) := by
  induction l with
  | nil => simp [sortRanges]
  | cons r rest ih => exact insertRange_sorted r (sortRanges rest) ih

theorem insertRange_wf (r : Range) (l : List Range)
    (hr : r.lo ≤ r.hi) (h : ∀ s ∈ l, s.lo ≤ s.hi) :
    ∀ s ∈ insertRange r l, s.lo ≤ s.hi := by
  induction l with
  | nil =>
    intro s hs
    simp [insertRange] at hs
    simpa [hs] using hr
  | cons t rest ih =>
    intro s hs
    by_cases hle : r.lo ≤ t.lo
    · simp [insertRange, hle] at hs
      rcases hs with hs | hs | hs
      · simpa [hs] using hr
      · exact hs ▸ h t (by simp)
      · exact h s (by simp [hs])
    · simp [insertRange, hle] at hs
      rcases hs with hs | hs
      · exact hs ▸ h t (by simp)
      · exact ih (fun u hu => h u (by simp [hu])) s hs

theorem sortRanges_wf (l : List Range) (h : ∀ s ∈ l, s.lo ≤ s.hi) :
    ∀ s ∈ sortRanges l, s.lo ≤ s.hi := by
  induction l with
  | nil => simp [sortRanges]
  | cons r rest ih =>
    exact insertRange_wf r (sortRanges rest) (h r (by simp))
      (ih (fun u hu => h u (by simp [hu])))

theorem coalesceAux_lo (l : List Range) (cur : Range)
    (h : List.Chain' (fun a b : Range => a.lo ≤ b.lo) (cur :: l)) :
    ∀ s ∈ coalesceAux cur l, cur.lo ≤ s.lo := by
  induction l generalizing cur with
  | nil =>
    intro s hs
    simp [coalesceAux] at hs
    simp [hs]
  | cons r rest ih =>
    have hcr : cur.lo ≤ r.lo := (List.chain'_cons.mp h).1
    have hchain : List.Chain' (fun a b : Range => a.lo ≤ b.lo) (r :: rest) :=
      (List.chain'_cons.mp h).2
    intro s hs
    by_cases hm : r.lo ≤ cur.hi + 1
    · simp only [coalesceAux, hm, if_true] at hs
      have hch : List.Chain' (fun a b : Range => a.lo ≤ b.lo)
          (Range.mk cur.lo (max cur.hi r.hi) :: rest) := by
        rw [List.chain'_cons']
        refine ⟨?_, hchain.tail⟩
        intro y hy
        have hry : r.lo ≤ y.lo := by
          rcases List.chain'_cons'.mp hchain with ⟨hh, _⟩
          exact hh y hy
        exact le_trans hcr hry
      exact ih ⟨cur.lo, max cur.hi r.hi⟩ hch s hs
    · simp only [coalesceAux, hm, if_false] at hs
      rcases List.mem_cons.mp hs with hs | hs
      · simp [hs]
      · exact le_trans hcr (ih r hchain s hs)

theorem coalesceAux_inv (l : List Range) (cur : Range)
    (hwf : cur.lo ≤ cur.hi) (hl : ∀ r ∈ l, r.lo ≤ r.hi)
    (h : List.Chain' (fun a b : Range => a.lo ≤ b.lo) (cur :: l)) :
    rsInv (coalesceAux cur l) := by
  induction l generalizing cur with
  | nil =>
    constructor
    · intro r hr
      simp [coalesceAux] at hr
      simpa [hr] using hwf
    · simp [coalesceAux]
  | cons r rest ih =>
    have hcr : cur.lo ≤ r.lo := (List.chain'_cons.mp h).1
    have hchain : List.Chain' (fun a b : Range => a.lo ≤ b.lo) (r :: rest) :=
      (List.chain'_cons.mp h).2
    by_cases hm : r.lo ≤ cur.hi + 1
    · simp only [coalesceAux, hm, if_true]
      have hch : List.Chain' (fun a b : Range => a.lo ≤ b.lo)
          (Range.mk cur.lo (max cur.hi r.hi) :: rest) := by
        rw [List.chain'_cons']
        refine ⟨?_, hchain.tail⟩
        intro y hy
        rcases List.chain'_cons'.mp hchain with ⟨hh, _⟩
        exact le_trans hcr (hh y hy)
      refine ih ⟨cur.lo, max cur.hi r.hi⟩ (le_trans hwf (le_max_left _ _)) ?_ hch
      intro u hu
      exact hl u (by simp [hu])
    · simp only [coalesceAux, hm, if_false]
      have hrec : rsInv (coalesceAux r rest) := by
        refine ih r (hl r (by simp)) ?_ hchain
        intro u hu
        exact hl u (by simp [hu])
      constructor
      · intro s hs
        rcases List.mem_cons.mp hs with hs | hs
        · rw [hs]
          exact hwf
        · exact hrec.1 s hs
      · rw [List.chain'_cons']
        refine ⟨?_, hrec.2⟩
        intro y hy
        have hyin : y ∈ coalesceAux r rest := by
          cases hE : coalesceAux r rest with
          | nil => simp [hE] at hy
          | cons z zs =>
            simp [hE] at hy
            simp [hE, hy]
        have hry : r.lo ≤ y.lo := coalesceAux_lo rest r hchain y hyin
        have : cur.hi + 1 < r.lo := lt_of_not_le hm
        exact lt_of_lt_of_le this hry

theorem normalizeRS_inv (l : List Range) : rsInv (normalizeRS l) := by
  have hwfall : ∀ s ∈ l.filter Range.wfb, s.lo ≤ s.hi := by
    intro s hs
    have := (List.mem_filter.mp hs).2
    simpa [Range.wfb] using this
  have hwfsorted := sortRanges_wf (l.filter Range.wfb) hwfall
  have hsorted := sortRanges_sorted (l.filter Range.wfb)
  rw [normalizeRS]
  cases hE : sortRanges (l.filter Range.wfb) with
  | nil => simp [coalesce, rsInv]
  | cons r rest =>
    rw [coalesce]
    rw [hE] at hwfsorted hsorted
    exact coalesceAux_inv rest r (hwfsorted r (by simp))
      (fun u hu => hwfsorted u (by simp [hu])) hsorted

theorem rsInv_gap_all (a : Range) (t : List Range) (h : rsInv (a :: t)) :
    ∀ s ∈ t, a.hi + 1 < s.lo := by
  induction t generalizing a with
  | nil => simp
  | cons b t2 ih =>
    intro s hs
    have hab : rgap a b := (List.chain'_cons.mp h.2).1
    rcases List.mem_cons.mp hs with hs | hs
    · rw [hs]
      exact hab
    · have hbt : rsInv (b :: t2) := by
        refine ⟨fun u hu => h.1 u (by simp at hu ⊢; tauto), (List.chain'_cons.mp h.2).2⟩
      have hb : b.lo ≤ b.hi := h.1 b (by simp)
      have := ih b hbt s hs
      rw [rgap] at hab
      omega

theorem rsInv_separated (l : List Range) (h : rsInv l) : separated l := by
  induction l with
  | nil => exact List.Pairwise.nil
  | cons a t ih =>
    have htail : rsInv t := ⟨fun u hu => h.1 u (by simp [hu]), h.2.tail⟩
    refine List.Pairwise.cons ?_ (ih htail)
    intro b hb
    have hgap : a.hi + 1 < b.lo := rsInv_gap_all a t h b hb
    have hwa : a.lo ≤ a.hi := h.1 a (by simp)
    have hwb : b.lo ≤ b.hi := h.1 b (by simp [hb])
    constructor
    · rintro ⟨v, hva, hvb⟩
      simp [Range.memB] at hva hvb
      omega
    · rintro (hadj | hadj) <;> omega

theorem containsB_cons (r : Range) (l : List Range) (v : Int) :
    containsB (r :: l) v = (r.memB v || containsB l v) := rfl

theorem containsB_append (l1 l2 : List Range) (v : Int) :
    containsB (l1 ++ l2) v = (containsB l1 v || containsB l2 v) := by
  simp [containsB]

theorem memB_of_not_wfb (r : Range) (h : ¬ Range.wfb r = true) (v : Int) :
    r.memB v = false := by
  simp [Range.wfb] at h
  simp [Range.memB]
  omega

theorem containsB_filter_wfb (l : List Range) (v : Int) :
    containsB (l.filter Range.wfb) v = containsB l v := by
  induction l with
  | nil => rfl
  | cons r rest ih =>
    by_cases h : Range.wfb r = true
    · rw [List.filter_cons_of_pos h, containsB_cons, containsB_cons, ih]
    · rw [List.filter_cons_of_neg h, containsB_cons, ih,
        memB_of_not_wfb r h, Bool.false_or]

theorem containsB_insertRange (r : Range) (l : List Range) (v : Int) :
    containsB (insertRange r l) v = (r.memB v || containsB l v) := by
  induction l with
  | nil => rfl
  | cons s rest ih =>
    by_cases h : r.lo ≤ s.lo
    · simp only [insertRange, h, if_true, containsB_cons]
    · simp only [insertRange, h, if_false, containsB_cons, ih]
      cases r.memB v <;> cases s.memB v <;> simp

theorem containsB_sortRanges (l : List Range) (v : Int) :
    containsB (sortRanges l) v = containsB l v := by
  induction l with
  | nil => rfl
  | cons r rest ih =>
    rw [sortRanges, containsB_insertRange, ih, containsB_cons]

theorem memB_merge (cur r : Range) (v : Int) (hcr : cur.lo ≤ r.lo)
    (hm : r.lo ≤ cur.hi + 1) :
    (Range.mk cur.lo (max cur.hi r.hi)).memB v = (cur.memB v || r.memB v) := by
  rw [Bool.eq_iff_iff]
  simp only [Range.memB, Bool.and_eq_true, Bool.or_eq_true, decide_eq_true_eq,
    le_max_iff]
  omega

theorem containsB_coalesceAux (l : List Range) (cur : Range) (v : Int)
    (h : List.Chain' (fun a b : Range => a.lo ≤ b.lo) (cur :: l)) :
    containsB (coalesceAux cur l) v = (cur.memB v || containsB l v) := by
  induction l generalizing cur with
  | nil => simp [coalesceAux, containsB]
  | cons r rest ih =>
    have hcr : cur.lo ≤ r.lo := (List.chain'_cons.mp h).1
    have hchain : List.Chain' (fun a b : Range => a.lo ≤ b.lo) (r :: rest) :=
      (List.chain'_cons.mp h).2
    by_cases hm : r.lo ≤ cur.hi + 1
    · simp only [coalesceAux, hm, if_true]
      have hch : List.Chain' (fun a b : Range => a.lo ≤ b.lo)
          (Range.mk cur.lo (max cur.hi r.hi) :: rest) := by
        rw [List.chain'_cons']
        refine ⟨?_, hchain.tail⟩
        intro y hy
        rcases List.chain'_cons'.mp hchain with ⟨hh, _⟩
        exact le_trans hcr (hh y hy)
      rw [ih ⟨cur.lo, max cur.hi r.hi⟩ hch, memB_merge cur r v hcr hm,
        containsB_cons, Bool.or_assoc]
    · simp only [coalesceAux, hm, if_false]
      rw [containsB_cons, ih r hchain, containsB_cons]

theorem containsB_normalizeRS (l : List Range) (v : Int) :
    containsB (normalizeRS l) v = containsB l v := by
  have h1 : containsB (sortRanges (l.filter Range.wfb)) v = containsB l v := by
    rw [containsB_sortRanges, containsB_filter_wfb]
  have hsorted := sortRanges_sorted (l.filter Range.wfb)
  rw [normalizeRS]
  cases hE : sortRanges (l.filter Range.wfb) with
  | nil =>
    rw [hE] at h1
    simpa [coalesce, containsB] using h1
  | cons r rest =>
    rw [hE] at h1 hsorted
    rw [coalesce, containsB_coalesceAux rest r v hsorted, ← containsB_cons]
    exact h1

theorem memB_interRange (a b : Range) (v : Int) :
    (interRange a b).memB v = (a.memB v && b.memB v) := by
  rw [Bool.eq_iff_iff]
  simp only [interRange, Range.memB, Bool.and_eq_true, decide_eq_true_eq,
    max_le_iff, le_min_iff]
  constructor
  · intro hx
    omega
  · intro hx
    omega

theorem containsB_map_inter (r : Range) (b : List Range) (v : Int) :
    containsB (b.map (interRange r)) v = (r.memB v && containsB b v) := by
  induction b with
  | nil => simp [containsB]
  | cons s rest ih =>
    rw [List.map_cons, containsB_cons, memB_interRange, ih, containsB_cons]
    cases r.memB v <;> cases s.memB v <;> simp

theorem containsB_intersectRS (a b : List Range) (v : Int) :
    containsB (intersectRS a b) v = (containsB a v && containsB b v) := by
  rw [intersectRS, containsB_normalizeRS]
  induction a with
  | nil => simp [containsB]
  | cons r rest ih =>
    rw [List.map_cons, List.flatten_cons, containsB_append, ih,
      containsB_map_inter, containsB_cons]
    cases r.memB v <;> cases containsB b v <;> simp

theorem containsB_unionRS (a b : List Range) (v : Int) :
    containsB (unionRS a b) v = (containsB a v || containsB b v) := by
  rw [unionRS, containsB_normalizeRS, containsB_append]

theorem containsB_true_elim (l : List Range) (v : Int)
    (h : containsB l v = true) : ∃ r ∈ l, r.memB v = true := by
  simpa [containsB, List.any_eq_true] using h

theorem rsInv_tail_lt (a : Range) (t : List Range) (h : rsInv (a :: t))
    (v : Int) (hc : containsB t v = true) : a.hi + 1 < v := by
  rcases containsB_true_elim t v hc with ⟨r, hr, hrv⟩
  have hg := rsInv_gap_all a t h r hr
  simp [Range.memB] at hrv
  omega

theorem rsInv_head_le (a : Range) (t : List Range) (h : rsInv (a :: t))
    (v : Int) (hc : containsB (a :: t) v = true) : a.lo ≤ v := by
  rcases containsB_true_elim (a :: t) v hc with ⟨r, hr, hrv⟩
  simp [Range.memB] at hrv
  rcases List.mem_cons.mp hr with hr | hr
  · rw [hr] at hrv
    omega
  · have hg := rsInv_gap_all a t h r hr
    have hwa : a.lo ≤ a.hi := h.1 a (by simp)
    omega

theorem containsB_head_lo (a : Range) (t : List Range) (hwa : a.lo ≤ a.hi) :
    containsB (a :: t) a.lo = true := by
  rw [containsB_cons]
  have : a.memB a.lo = true := by
    simp [Range.memB]
    exact hwa
  simp [this]

theorem canonical_eq (l1 : List Range) :
    ∀ l2 : List Range, rsInv l1 → rsInv l2 →
      (∀ v : Int, containsB l1 v = containsB l2 v) → l1 = l2 := by
  induction l1 with
  | nil =>
    intro l2 _ h2 h
    cases l2 with
    | nil => rfl
    | cons b t2 =>
      have hwb : b.lo ≤ b.hi := h2.1 b (by simp)
      have hv := h b.lo
      rw [containsB_head_lo b t2 hwb] at hv
      simp [containsB] at hv
  | cons a t1 ih =>
    intro l2 h1 h2 h
    cases l2 with
    | nil =>
      have hwa : a.lo ≤ a.hi := h1.1 a (by simp)
      have hv := h a.lo
      rw [containsB_head_lo a t1 hwa] at hv
      simp [containsB] at hv
    | cons b t2 =>
      have hwa : a.lo ≤ a.hi := h1.1 a (by simp)
      have hwb : b.lo ≤ b.hi := h2.1 b (by simp)
      have hlo : a.lo = b.lo := by
        have hab : b.lo ≤ a.lo := by
          have hv := h a.lo
          rw [containsB_head_lo a t1 hwa] at hv
          exact rsInv_head_le b t2 h2 a.lo hv.symm
        have hba : a.lo ≤ b.lo := by
          have hv := h b.lo
          rw [containsB_head_lo b t2 hwb] at hv
          exact rsInv_head_le a t1 h1 b.lo hv
        omega
      have hhi : a.hi = b.hi := by
        rcases lt_trichotomy a.hi b.hi with hcase | hcase | hcase
        · exfalso
          have hvin : containsB (b :: t2) (a.hi + 1) = true := by
            rw [containsB_cons]
            have : b.memB (a.hi + 1) = true := by
              simp [Range.memB]
              omega
            simp [this]
          have hvout : containsB (a :: t1) (a.hi + 1) = false := by
            cases hc : containsB (a :: t1) (a.hi + 1) with
            | false => rfl
            | true =>
              exfalso
              rw [containsB_cons] at hc
              rcases Bool.or_eq_true_iff.mp hc with hc | hc
              · simp only [Range.memB, Bool.and_eq_true, decide_eq_true_eq] at hc
                omega
              · have := rsInv_tail_lt a t1 h1 (a.hi + 1) hc
                omega
          rw [h (a.hi + 1), hvin] at hvout
          exact Bool.noConfusion hvout
        · exact hcase
        · exfalso
          have hvin : containsB (a :: t1) (b.hi + 1) = true := by
            rw [containsB_cons]
            have : a.memB (b.hi + 1) = true := by
              simp [Range.memB]
              omega
            simp [this]
          have hvout : containsB (b :: t2) (b.hi + 1) = false := by
            cases hc : containsB (b :: t2) (b.hi + 1) with
            | false => rfl
            | true =>
              exfalso
              rw [containsB_cons] at hc
              rcases Bool.or_eq_true_iff.mp hc with hc | hc
              · simp only [Range.memB, Bool.and_eq_true, decide_eq_true_eq] at hc
                omega
              · have := rsInv_tail_lt b t2 h2 (b.hi + 1) hc
                omega
          rw [← h (b.hi + 1), hvin] at hvout
          exact Bool.noConfusion hvout
      have hhead : a = b := by
        cases a
        cases b
        simp at hlo hhi ⊢
        exact ⟨hlo, hhi⟩
      have htails : ∀ v : Int, containsB t1 v = containsB t2 v := by
        intro v
        rw [Bool.eq_iff_iff]
        constructor
        · intro hc1
          have hgt : a.hi + 1 < v := rsInv_tail_lt a t1 h1 v hc1
          have hfull : containsB (a :: t1) v = true := by
            rw [containsB_cons, hc1]
            simp
          rw [h v, containsB_cons] at hfull
          rcases Bool.or_eq_true_iff.mp hfull with hc | hc
          · exfalso
            simp [Range.memB] at hc
            omega
          · exact hc
        · intro hc2
          have hgt : b.hi + 1 < v := rsInv_tail_lt b t2 h2 v hc2
          have hfull : containsB (b :: t2) v = true := by
            rw [containsB_cons, hc2]
            simp
          rw [← h v, containsB_cons] at hfull
          rcases Bool.or_eq_true_iff.mp hfull with hc | hc
          · exfalso
            simp [Range.memB] at hc
            omega
          · exact hc
      have ht1 : rsInv t1 := ⟨fun u hu => h1.1 u (by simp [hu]), h1.2.tail⟩
      have ht2 : rsInv t2 := ⟨fun u hu => h2.1 u (by simp [hu]), h2.2.tail⟩
      rw [hhead, ih t2 ht1 ht2 htails]

theorem intersectRS_absorb (a c : List Range) :
    intersectRS (intersectRS a c) c = intersectRS a c := by
  apply canonical_eq
  · exact normalizeRS_inv _
  · exact normalizeRS_inv _
  · intro v
    rw [containsB_intersectRS, containsB_intersectRS]
    cases containsB a v <;> cases containsB c v <;> rfl

/-- Modelled from the spec: an opaque identity standing for an unknown
runtime value, compared by identity (spec section 3, SymbolicValue). -/
abbrev SymbolicValue := Nat

/-- Modelled from the spec: a causal annotation attached to a state
transition (spec section 3, Note). -/
inductive Note where
  | assumed (desc : String)
  | branch (taken : Bool)
  | violated (desc : String)
deriving DecidableEq

/-- Modelled from the spec: an immutable snapshot mapping SymbolicValue to
RangeSet plus the causal note trail (spec section 3, ProgramState).  The
predecessor chain is flattened into the full root-to-here note list;
`feasible` records whether no `assume` so far has narrowed a value to the
empty RangeSet (spec section 4.2: an empty intersection makes the state
infeasible). -/
structure ProgramState where
  facts : List (SymbolicValue × RangeSet)
  feasible : Bool
  notes : List Note
deriving DecidableEq

/-- Look up the RangeSet recorded for a symbolic value. -/
def lookupFacts : List (SymbolicValue × RangeSet) → SymbolicValue → RangeSet
  | [], _ => []
  | (w, rs) :: rest, v => if w = v then rs else lookupFacts rest v

/-- Record a RangeSet for a symbolic value. -/
def setFacts : List (SymbolicValue × RangeSet) → SymbolicValue → RangeSet →
    List (SymbolicValue × RangeSet)
  | [], v, rs => [(v, rs)]
  | (w, old) :: rest, v, rs =>
    if w = v then (v, rs) :: rest else (w, old) :: setFacts rest v rs

/-- Comparison operators of relational constraints. -/
inductive CompareOp where
  | eq | ne | lt | le | gt | ge
deriving DecidableEq

/-- Modelled from the spec: Constraint is a closed tagged variant —
RangeConstraint, NotNullConstraint or RelationalConstraint — each carrying a
human-readable violation description (spec section 3, Constraint).  Each
also carries the declared domain of the scalar type of the value it
constrains, relative to which its complement is taken. -/
inductive Constraint where
  | rangeC (v : SymbolicValue) (dom : Range) (allowed : RangeSet) (desc : String)
  | notNull (v : SymbolicValue) (dom : Range) (desc : String)
  | relational (a b : SymbolicValue) (op : CompareOp) (dom : Range) (desc : String)
deriving DecidableEq

/-- The symbolic value a constraint narrows. -/
def Constraint.cValue : Constraint → SymbolicValue
  | .rangeC v _ _ _ => v
  | .notNull v _ _ => v
  | .relational a _ _ _ _ => a

/-- The declared domain of the constrained value. -/
def Constraint.cDom : Constraint → Range
  | .rangeC _ d _ _ => d
  | .notNull _ d _ => d
  | .relational _ _ _ d _ => d

/-- The human-readable violation description of a constraint. -/
def Constraint.cDesc : Constraint → String
  | .rangeC _ _ _ d => d
  | .notNull _ _ d => d
  | .relational _ _ _ _ d => d

/-- Modelled from the spec: the text of the Note describing the assumption
that a constraint holds (spec section 4.2: assume appends a Note describing
the assumption; the bugpath notes of the test file word it as the fact
assumed, e.g. that the pointer is not null). -/
def Constraint.assumeDesc : Constraint → String
  | .rangeC _ _ _ _ => "argument is within the valid range"
  | .notNull _ _ _ => "pointer is not null"
  | .relational _ _ _ _ _ => "relation between the arguments holds"

/-- Largest value of a RangeSet, ignoring empty ranges. -/
def rsMaxVal (l : RangeSet) : Option Int :=
  (l.filter Range.wfb).foldr
    (fun r acc => match acc with
      | none => some r.hi
      | some m => some (max r.hi m)) none

/-- Smallest value of a RangeSet, ignoring empty ranges. -/
def rsMinVal (l : RangeSet) : Option Int :=
  (l.filter Range.wfb).foldr
    (fun r acc => match acc with
      | none => some r.lo
      | some m => some (min r.lo m)) none

/-- Modelled from the spec: the RangeSet of values a constraint allows for
its constrained value, computed in a given state (spec sections 3 and 4.2).
A NotNullConstraint allows everything in the pointer domain but null; a
RelationalConstraint narrows its first value by the interval projection of
the relation against the second value's current RangeSet (a degenerate
relation of a value with itself allows everything or nothing according to
whether the relation is reflexive). -/
def Constraint.allowedIn (c : Constraint) (s : ProgramState) : RangeSet :=
  match c with
  | .rangeC _ _ allowed _ => allowed
  | .notNull _ dom _ => complementWithinDomain dom [⟨0, 0⟩]
  | .relational a b op dom _ =>
    if a = b then
      match op with
      | .eq | .le | .ge => [dom]
      | .ne | .lt | .gt => []
    else
      let bs := lookupFacts s.facts b
      match op with
      | .eq => bs
      | .ne =>
        match bs with
        | [r] => if r.lo = r.hi then complementWithinDomain dom [r] else [dom]
        | _ => [dom]
      | .lt =>
        match rsMaxVal bs with
        | none => []
        | some m => [⟨dom.lo, m - 1⟩]
      | .le =>
        match rsMaxVal bs with
        | none => []
        | some m => [⟨dom.lo, m⟩]
      | .gt =>
        match rsMinVal bs with
        | none => []
        | some m => [⟨m + 1, dom.hi⟩]
      | .ge =>
        match rsMinVal bs with
        | none => []
        | some m => [⟨m, dom.hi⟩]

/-- Modelled from the spec: `assume` intersects the constraint's allowed
RangeSet into the current one for the constrained value, appends a Note
describing the assumption, and returns the narrowed state; if the
intersection is empty the resulting state is infeasible (spec
section 4.2). -/
def assume (s : ProgramState) (c : Constraint) : ProgramState :=
  let ns := intersectRS (lookupFacts s.facts c.cValue) (c.allowedIn s)
  { facts := setFacts s.facts c.cValue ns,
    feasible := s.feasible && !(isEmptyRS ns),
    notes := s.notes ++ [Note.assumed c.assumeDesc] }

/-- Modelled from the spec: the violating continuation assumes the
complement of the constraint's allowed set within the declared domain and
carries the violation note (spec section 4.3 step 1 and section 3, Note). -/
def assumeViolating (s : ProgramState) (c : Constraint) : ProgramState :=
  let ns := intersectRS (lookupFacts s.facts c.cValue)
    (complementWithinDomain c.cDom (c.allowedIn s))
  { facts := setFacts s.facts c.cValue ns,
    feasible := s.feasible && !(isEmptyRS ns),
    notes := s.notes ++ [Note.violated c.cDesc] }

/-- Modelled from the spec: a conditional branch narrows the branched-on
value and appends the pair of Notes recording the assumption and the branch
taken (spec section 3, Note). -/
def assumeBranch (s : ProgramState) (v : SymbolicValue) (allowed : RangeSet)
    (desc : String) (taken : Bool) : ProgramState :=
  let ns := intersectRS (lookupFacts s.facts v) allowed
  { facts := setFacts s.facts v ns,
    feasible := s.feasible && !(isEmptyRS ns),
    notes := s.notes ++ [Note.assumed desc, Note.branch taken] }

/-- Three-valued result of an evaluation probe. -/
inductive EvalResult where
  | isTrue | isFalse | unknown
deriving DecidableEq

/-- Is the value set of `a` a subset of the value set of `b` (decided on
canonical forms). -/
def subsetB (a b : RangeSet) : Bool :=
  intersectRS a b == normalizeRS a

/-- Are the value sets of `a` and `b` disjoint. -/
def disjointB (a b : RangeSet) : Bool :=
  isEmptyRS (intersectRS a b)

/-- Modelled from the spec: `evaluate` answers True if the value's current
RangeSet is a subset of the predicate's range, False if disjoint, Unknown
otherwise (spec section 4.2). -/
def evaluate (s : ProgramState) (v : SymbolicValue) (pred : RangeSet) :
    EvalResult :=
  if subsetB (lookupFacts s.facts v) pred then .isTrue
  else if disjointB (lookupFacts s.facts v) pred then .isFalse
  else .unknown

/-- Modelled from the spec: an immutable record of a proven violation — the
violated constraint's description plus the ordered note chain from the
analysis root to the violation point, tagged with the program point of the
call (spec section 3, Report). -/
structure Report where
  description : String
  notes : List Note
  point : Nat
deriving DecidableEq

/-- Modelled from the spec: the constraint application engine (spec
section 4.3).  Constraints are applied strictly in summary order.  For each
constraint both continuations are formed; a violating continuation that is
infeasible means the constraint is already guaranteed (step 2, no split, no
report); a valid continuation that is infeasible makes the violating
continuation a terminal Report-producing side-path and stops the main path
(step 3).  When both are feasible the main path proceeds as the valid
continuation; following the expected-warning annotations of the in-tree
test file (no warning is expected for an unconstrained symbolic argument),
no Report is produced for such a fork — a Report arises exactly when the
violation is provable.  The result is the list of continuing main-path
states (at most one) and the list of Reports produced at this call. -/
def applyConstraints (point : Nat) (s : ProgramState) :
    List Constraint → List ProgramState × List Report
  | [] => ([s], [])
  | c :: rest =>
    let valid := assume s c
    let viol := assumeViolating s c
    if !viol.feasible then applyConstraints point valid rest
    else if !valid.feasible then ([], [⟨c.cDesc, viol.notes, point⟩])
    else applyConstraints point valid rest

/-- Modelled from the spec: the two run configurations of the surrounding
tool select the rendering of Reports only; they are not an engine input
(spec section 6). -/
inductive OutputMode where
  | short | bugpath
deriving DecidableEq

/-- A rendered warning: the program point and the violation message. -/
structure Diagnostic where
  point : Nat
  message : String
deriving DecidableEq

/-- A report as rendered by the external presentation layer: the warning
itself plus, in bugpath configuration, the causal note path. -/
structure RenderedReport where
  diag : Diagnostic
  path : List Note
deriving DecidableEq

/-- Modelled from the spec: the external presentation layer renders either
the short diagnostic form or the full causal-path form (spec section 4.4
and section 6). -/
def renderReport (m : OutputMode) (r : Report) : RenderedReport :=
  { diag := ⟨r.point, r.description⟩,
    path :=
      match m with
      | .short => []
      | .bugpath => r.notes }

/-- One run of the surrounding tool on a call site: the engine produces the
Reports, the presentation layer renders them in the selected mode. -/
def runAnalysis (m : OutputMode) (point : Nat) (s : ProgramState)
    (cs : List Constraint) : List RenderedReport :=
  ((applyConstraints point s cs).2).map (renderReport m)

/-- The 32-bit int domain of the test file's x86_64 triple. -/
def intDom : Range := ⟨-2147483648, 2147483647⟩

/-- The 64-bit pointer domain of the test file's x86_64 triple. -/
def ptrDom : Range := ⟨0, 18446744073709551615⟩

/-- The argument summary of isalnum: argument 0 constrained to [-1, 255]
(test file, isalnum scenarios). -/
def alnumConstraint : Constraint :=
  .rangeC 0 intDom [⟨-1, 255⟩] "Function argument constraint is not satisfied"

/-- Call state of test_alnum_concrete: the argument is the literal 256. -/
def stAlnumConcrete : ProgramState :=
  { facts := [(0, [⟨256, 256⟩])], feasible := true, notes := [] }

/-- Call state of test_alnum_symbolic: a fully unconstrained int argument. -/
def stAlnumSymbolic : ProgramState :=
  { facts := [(0, [intDom])], feasible := true, notes := [] }

/-- Call state of test_alnum_symbolic2: the same symbolic argument after
the branch `x > 255` has been assumed and the true branch taken. -/
def stAlnumSymbolic2 : ProgramState :=
  assumeBranch stAlnumSymbolic 0 [⟨256, 2147483647⟩] "Assuming x is > 255" true

/-- The argument summary of __arg_constrained_twice: two sequential
OutOfRange constraints on argument 0 excluding 1 and 2 respectively (test
file, test_multiple_constraints_on_same_arg). -/
def argConstrainedTwiceSummary : List Constraint :=
  [ .rangeC 0 intDom (complementWithinDomain intDom [⟨1, 1⟩])
      "Function argument constraint is not satisfied",
    .rangeC 0 intDom (complementWithinDomain intDom [⟨2, 2⟩])
      "Function argument constraint is not satisfied" ]

/-- The argument summary of __two_constrained_args: both argument 0 and
argument 1 constrained to the single value 1 (test file,
test_constraints_on_multiple_args). -/
def twoConstrainedArgsSummary : List Constraint :=
  [ .rangeC 0 intDom [⟨1, 1⟩] "Function argument constraint is not satisfied",
    .rangeC 1 intDom [⟨1, 1⟩] "Function argument constraint is not satisfied" ]

/-- Call state of test_constraints_on_multiple_args: two independent
unconstrained int arguments x (symbol 0) and y (symbol 1). -/
def stTwoArgs : ProgramState :=
  { facts := [(0, [intDom]), (1, [intDom])], feasible := true, notes := [] }

/-- Call state of test_multiple_constraints_on_same_arg: one unconstrained
int argument x (symbol 0). -/
def stTwiceArg : ProgramState :=
  { facts := [(0, [intDom])], feasible := true, notes := [] }

/-- The argument summary of fread: NotNull on the buffer (argument 0,
symbol 0) and on the stream (argument 3, symbol 3) (test file,
test_notnull scenarios). -/
def freadSummary : List Constraint :=
  [ .notNull 0 ptrDom "Function argument constraint is not satisfied",
    .notNull 3 ptrDom "Function argument constraint is not satisfied" ]

/-- Call state of test_notnull_symbolic: unconstrained symbolic pointers
buf (symbol 0) and fp (symbol 3). -/
def stFread : ProgramState :=
  { facts := [(0, [ptrDom]), (3, [ptrDom])], feasible := true, notes := [] }

/-- An MLIR type, abstract (identified by index). -/
abbrev MType := Nat

/-- A quantized element type, abstract (identified by index). -/
abbrev QType := Nat

/-- A source location; FusedLoc combines the constant's location and the
qbarrier's location (ConvertConst.cpp lines 88-92). -/
inductive Loc where
  | plain (id : Nat)
  | fused (a b : Loc)
deriving DecidableEq

/-- The attribute kinds distinguished by QuantizedConstRewrite: only
FloatAttr, DenseElementsAttr and SparseElementsAttr are supported constant
kinds (ConvertConst.cpp lines 75-79). -/
inductive Attr where
  | floatAttr (id : Nat)
  | denseElementsAttr (id : Nat)
  | sparseElementsAttr (id : Nat)
  | otherAttr (id : Nat)
deriving DecidableEq

/-- value.isa FloatAttr or DenseElementsAttr or SparseElementsAttr
(ConvertConst.cpp lines 76-77). -/
def Attr.isSupportedKind : Attr → Bool
  | .floatAttr _ => true
  | .denseElementsAttr _ => true
  | .sparseElementsAttr _ => true
  | .otherAttr _ => false

/-- The Quant dialect library operations that matchAndRewrite consults.
They are declared in headers outside the given sources, so they are
abstract parameters of the embedding: QuantizedType's
getQuantizedElementType and castToStorageType, the
isCompatibleExpressedType check, and quantizeAttr (which on success also
yields the new constant's type through its out-parameter). -/
structure QuantEnv where
  getQuantizedElementType : MType → Option QType
  castToStorageType : MType → Option MType
  isCompatibleExpressedType : QType → MType → Bool
  quantizeAttr : Attr → QType → Option (Attr × MType)

/-- The data of a quant QuantizeCastOp (the qbarrier) read by
matchAndRewrite: the constant attribute feeding its operand if the operand
is defined by a constant (matchPattern with m_Constant), the operand's type
and defining op's location, and the op's own result type and location
(ConvertConst.cpp lines 44-98). -/
structure QuantizeCastOpData where
  argConst : Option Attr
  argType : MType
  argDefLoc : Loc
  resultType : MType
  loc : Loc
deriving DecidableEq

/-- The rewriter actions matchAndRewrite can perform, in order: creating
the new quantized ConstantOp at the fused location, then replacing the
qbarrier with a StorageCastOp to the qbarrier's result type whose operand
is the new constant (ConvertConst.cpp lines 93-96). -/
inductive RewriteAction where
  | createConstantOp (loc : Loc) (ty : MType) (value : Attr)
  | replaceWithStorageCastOp (resTy : MType)
deriving DecidableEq

/-- Shallow embedding of QuantizedConstRewrite::matchAndRewrite
(ConvertConst.cpp lines 44-98): the returned Bool is the LogicalResult
(true for success) and the list collects the rewriter actions performed, in
order; every failure path returns before any rewriter action. -/
def matchAndRewrite (env : QuantEnv) (q : QuantizeCastOpData) :
    Bool × List RewriteAction :=
  match q.argConst with
  | none => (false, [])
  | some value =>
    match env.getQuantizedElementType q.resultType with
    | none => (false, [])
    | some quantizedElementType =>
      match env.castToStorageType q.resultType with
      | none => (false, [])
      | some _ =>
        if !(env.isCompatibleExpressedType quantizedElementType q.argType) then
          (false, [])
        else if !value.isSupportedKind then (false, [])
        else
          match env.quantizeAttr value quantizedElementType with
          | none => (false, [])
          | some (newConstValue, newConstValueType) =>
            (true,
             [RewriteAction.createConstantOp (Loc.fused q.argDefLoc q.loc)
                newConstValueType newConstValue,
              RewriteAction.replaceWithStorageCastOp q.resultType])

/-- All guards of matchAndRewrite pass, in source order: the operand is a
constant, the result type has a quantized element type, the result type
casts to a storage type, the operand type is compatible with the quantized
type's expressed type, the constant attribute is of a supported kind, and
quantizeAttr yields a value (ConvertConst.cpp lines 49-86). -/
def allGuardsPass (env : QuantEnv) (q : QuantizeCastOpData) : Prop :=
  ∃ value qet, q.argConst = some value ∧
    env.getQuantizedElementType q.resultType = some qet ∧
    (env.castToStorageType q.resultType).isSome = true ∧
    env.isCompatibleExpressedType qet q.argType = true ∧
    value.isSupportedKind = true ∧
    (env.quantizeAttr value qet).isSome = true

theorem lookupFacts_setFacts_same (fs : List (SymbolicValue × RangeSet))
    (v : SymbolicValue) (rs : RangeSet) :
    lookupFacts (setFacts fs v rs) v = rs := by
  induction fs with
  | nil => simp [setFacts, lookupFacts]
  | cons p rest ih =>
    rcases p with ⟨w, old⟩
    by_cases h : w = v
    · simp [setFacts, h, lookupFacts]
    · simp [setFacts, h, lookupFacts, ih]

theorem lookupFacts_setFacts_ne (fs : List (SymbolicValue × RangeSet))
    (v w : SymbolicValue) (rs : RangeSet) (h : v ≠ w) :
    lookupFacts (setFacts fs v rs) w = lookupFacts fs w := by
  induction fs with
  | nil => simp [setFacts, lookupFacts, h]
  | cons p rest ih =>
    rcases p with ⟨u, old⟩
    by_cases hu : u = v
    · simp [setFacts, hu, lookupFacts, h]
    · simp [setFacts, hu, lookupFacts, ih]

theorem setFacts_setFacts_same (fs : List (SymbolicValue × RangeSet))
    (v : SymbolicValue) (rs1 rs2 : RangeSet) :
    setFacts (setFacts fs v rs1) v rs2 = setFacts fs v rs2 := by
  induction fs with
  | nil => simp [setFacts]
  | cons p rest ih =>
    rcases p with ⟨u, old⟩
    by_cases hu : u = v
    · simp [setFacts, hu]
    · simp [setFacts, hu, ih]

theorem allowedIn_assume (c : Constraint) (s : ProgramState) :
    c.allowedIn (assume s c) = c.allowedIn s := by
  cases c with
  | rangeC v dom allowed desc => rfl
  | notNull v dom desc => rfl
  | relational a b op dom desc =>
    by_cases hab : a = b
    · simp [Constraint.allowedIn, hab]
    · have hb : lookupFacts (assume s (.relational a b op dom desc)).facts b =
          lookupFacts s.facts b := by
        simp only [assume]
        exact lookupFacts_setFacts_ne _ _ _ _ hab
      simp only [Constraint.allowedIn, hab, if_false, hb]

/-- C1: with the summary constraining argument 0 to [-1, 255] and the call
site passing the literal 256 (isalnum(256)), the engine produces exactly
one Report, the valid continuation is infeasible, and no continuing
main-path state remains, so no statement after the call is reachable on
that path. -/
theorem claim_C1 :
    (applyConstraints 7 stAlnumConcrete [alnumConstraint]).2.length = 1 ∧
    (assume stAlnumConcrete alnumConstraint).feasible = false ∧
    (applyConstraints 7 stAlnumConcrete [alnumConstraint]).1 = [] := by
  decide

/-- C2 counterexample: for the summary applying two sequential constraints
to the same unconstrained argument, with conjunction excluding the set
{1, 2}, the engine surfaces no Report-producing side-path at all — not
exactly one as the claim states. -/
theorem claim_C2_counterexample :
    ¬ (applyConstraints 11 stTwiceArg argConstrainedTwiceSummary).2.length = 1 := by
  decide

/-- C2 (amended): for a summary that applies two sequential constraints to
the same argument whose conjunction excludes the set {1, 2}, the continuing
state proves x < 1 or x > 2 True on the single continuing path (no state
split), and no Report-producing side-path is surfaced because the violation
is not provable at this call. -/
theorem claim_C2_amended :
    ((applyConstraints 11 stTwiceArg argConstrainedTwiceSummary).1.map
      (fun st => evaluate st 0 [⟨-2147483648, 0⟩, ⟨3, 2147483647⟩])) =
      [EvalResult.isTrue] ∧
    (applyConstraints 11 stTwiceArg argConstrainedTwiceSummary).2 = [] := by
  decide

/-- C3: after a prior branch assumed x > 255 and took the true branch, the
[-1, 255]-constrained call with symbolic x produces exactly one Report, and
its note chain contains the earlier branch notes before the violation note,
in that order. -/
theorem claim_C3 :
    applyConstraints 9 stAlnumSymbolic2 [alnumConstraint] =
      ([], [⟨"Function argument constraint is not satisfied",
            [Note.assumed "Assuming x is > 255", Note.branch true,
             Note.violated "Function argument constraint is not satisfied"],
            9⟩]) := by
  decide

/-- C4: for the summary Equals(arg0, 1), Equals(arg1, 1) applied to two
independent unconstrained symbolic values x and y, there is exactly one
continuing main-path state (no branch point on the continuing path), and on
it both x == 1 and y == 1 evaluate True. -/
theorem claim_C4 :
    ((applyConstraints 10 stTwoArgs twoConstrainedArgsSummary).1.map
      (fun st => (evaluate st 0 [⟨1, 1⟩], evaluate st 1 [⟨1, 1⟩]))) =
      [(EvalResult.isTrue, EvalResult.isTrue)] := by
  decide

/-- C5: for a call with a fully unconstrained symbolic argument x under the
[-1, 255] constraint (isalnum(x)), the single continuing valid state
evaluates -1 <= x and x <= 255 to True, and its note chain records the
assumption. -/
theorem claim_C5 :
    ((applyConstraints 8 stAlnumSymbolic [alnumConstraint]).1.map
      (fun st => evaluate st 0 [⟨-1, 255⟩])) = [EvalResult.isTrue] ∧
    ((applyConstraints 8 stAlnumSymbolic [alnumConstraint]).1.map
      (fun st => st.notes)) =
      [[Note.assumed "argument is within the valid range"]] := by
  decide

/-- C6: after the fread call whose summary places a NotNullConstraint on
the symbolic unconstrained buffer pointer, assume has intersected the
nullness fact (everything in the pointer domain except null) into the
buffer's RangeSet, the continuing state evaluates buf != 0 as True, and a
note records that the pointer is not null. -/
theorem claim_C6 :
    ((applyConstraints 12 stFread freadSummary).1.map
      (fun st => lookupFacts st.facts 0)) =
      [intersectRS [ptrDom] (complementWithinDomain ptrDom [⟨0, 0⟩])] ∧
    ((applyConstraints 12 stFread freadSummary).1.map
      (fun st => evaluate st 0 (complementWithinDomain ptrDom [⟨0, 0⟩]))) =
      [EvalResult.isTrue] ∧
    ((applyConstraints 12 stFread freadSummary).1.map (fun st => st.notes)) =
      [[Note.assumed "pointer is not null", Note.assumed "pointer is not null"]] := by
  decide

/-- C7: for every call scenario (state, summary, program point), the
constraint-violation warnings emitted are identical between the short
diagnostic run configuration and the full causal-path (bugpath) run
configuration: each violation is reported at the same program point with
the same message in both modes. -/
theorem claim_C7 (m1 m2 : OutputMode) (point : Nat) (s : ProgramState)
    (cs : List Constraint) :
    (runAnalysis m1 point s cs).map RenderedReport.diag =
      (runAnalysis m2 point s cs).map RenderedReport.diag := by
  cases m1 <;> cases m2 <;>
    simp only [runAnalysis, List.map_map] <;> rfl

/-- C8: every RangeSet produced by intersect, union or
complementWithinDomain is separated — no two ranges of the result overlap
and no two are adjacent — hence any finite sequence of these operations
preserves the invariant. -/
theorem claim_C8 (a b : RangeSet) (dom : Range) :
    separated (intersectRS a b) ∧ separated (unionRS a b) ∧
      separated (complementWithinDomain dom a) := by
  unfold intersectRS unionRS complementWithinDomain
  exact ⟨rsInv_separated _ (normalizeRS_inv _),
    rsInv_separated _ (normalizeRS_inv _),
    rsInv_separated _ (normalizeRS_inv _)⟩

/-- C9: assume is idempotent — applying the same constraint twice in
succession yields a state whose accumulated facts (and feasibility) equal
those of applying it once. -/
theorem claim_C9 (s : ProgramState) (c : Constraint) :
    (assume (assume s c) c).facts = (assume s c).facts ∧
    (assume (assume s c) c).feasible = (assume s c).feasible := by
  have hall := allowedIn_assume c s
  have hlook : lookupFacts (assume s c).facts c.cValue =
      intersectRS (lookupFacts s.facts c.cValue) (c.allowedIn s) := by
    simp only [assume]
    exact lookupFacts_setFacts_same _ _ _
  have hns2 : intersectRS (lookupFacts (assume s c).facts c.cValue)
      (c.allowedIn (assume s c)) =
      intersectRS (lookupFacts s.facts c.cValue) (c.allowedIn s) := by
    rw [hlook, hall]
    exact intersectRS_absorb _ _
  constructor
  · show setFacts (assume s c).facts c.cValue
        (intersectRS (lookupFacts (assume s c).facts c.cValue)
          (c.allowedIn (assume s c))) = (assume s c).facts
    rw [hns2]
    simp only [assume]
    exact setFacts_setFacts_same _ _ _ _
  · show ((assume s c).feasible &&
        !(isEmptyRS (intersectRS (lookupFacts (assume s c).facts c.cValue)
          (c.allowedIn (assume s c))))) = (assume s c).feasible
    rw [hns2]
    simp only [assume]
    cases s.feasible <;>
      cases isEmptyRS (intersectRS (lookupFacts s.facts c.cValue)
        (c.allowedIn s)) <;> rfl

/-- C10: QuantizedConstRewrite::matchAndRewrite is atomic on failure — it
returns failure with no rewriter action performed (the IR unchanged)
unless every guard passes (operand constant; result type quantized and
castable to a storage type; operand type compatible with the expressed
type; supported attribute kind; quantizeAttr succeeds); when all guards
pass it creates the quantized ConstantOp and replaces the QuantizeCastOp
with a StorageCastOp of it, returning success. -/
theorem claim_C10 (env : QuantEnv) (q : QuantizeCastOpData) :
    (¬ allGuardsPass env q ∧ matchAndRewrite env q = (false, [])) ∨
    (allGuardsPass env q ∧
      ∃ value qet newValue newType,
        q.argConst = some value ∧
        env.getQuantizedElementType q.resultType = some qet ∧
        env.quantizeAttr value qet = some (newValue, newType) ∧
        matchAndRewrite env q =
          (true,
           [RewriteAction.createConstantOp (Loc.fused q.argDefLoc q.loc)
              newType newValue,
            RewriteAction.replaceWithStorageCastOp q.resultType])) := by
  rcases hc : q.argConst with _ | value
  · left
    refine ⟨?_, by simp [matchAndRewrite, hc]⟩
    simp [allGuardsPass, hc]
  · rcases hq : env.getQuantizedElementType q.resultType with _ | qet
    · left
      refine ⟨?_, by simp [matchAndRewrite, hc, hq]⟩
      simp [allGuardsPass, hc, hq]
    · rcases hcast : env.castToStorageType q.resultType with _ | st
      · left
        refine ⟨?_, by simp [matchAndRewrite, hc, hq, hcast]⟩
        simp [allGuardsPass, hc, hq, hcast]
      · by_cases hcompat : env.isCompatibleExpressedType qet q.argType = true
        · by_cases hsupp : value.isSupportedKind = true
          · rcases hquant : env.quantizeAttr value qet with _ | ⟨newValue, newType⟩
            · left
              refine ⟨?_,
                by simp [matchAndRewrite, hc, hq, hcast, hcompat, hsupp, hquant]⟩
              simp [allGuardsPass, hc, hq, hcast, hcompat, hsupp, hquant]
            · right
              refine ⟨⟨value, qet, hc, hq, by simp [hcast], hcompat, hsupp,
                by simp [hquant]⟩, value, qet, newValue, newType, rfl, rfl, hquant, ?_⟩
              simp [matchAndRewrite, hc, hq, hcast, hcompat, hsupp, hquant]
          · left
            refine ⟨?_, by simp [matchAndRewrite, hc, hq, hcast, hcompat, hsupp]⟩
            simp [allGuardsPass, hc, hq, hcast, hcompat, hsupp]
        · left
          refine ⟨?_, by simp [matchAndRewrite, hc, hq, hcast, hcompat]⟩
          simp [allGuardsPass, hc, hq, hcast, hcompat]
